import Mathlib

/-
Shallow embedding of the HTCL tokenizer (src/lexer.ts) and proofs about it.
The TypeScript source is translated definition by definition: the TokenType
enum, the Token record, the character-class predicates, and the scan loop of
tokenize.  JavaScript-specific runtime behaviour (Number(), parseInt, the
\s regular-expression class, undefined lookups past the end of the buffer)
is modelled explicitly where the source relies on it.
-/

namespace HTCL

/-- Token taxonomy of the lexer, one constructor per enumerant of the
TokenType enum in src/lexer.ts (same order).  The source enumerant `Type`
is rendered `Typ` because `Type` is a reserved word in Lean; the
string-to-enumerant table `enumOfName` below still keys it as "Type". -/
inductive TokenType where
  | Number
  | Name
  | StringLiteral
  | Identifier
  | OpenParen
  | CloseParen
  | BinaryOperator
  | OpenBracket
  | CloseBracket
  | EndBracket
  | Equals
  | Let
  | Const
  | Args
  | Arg
  | Return
  | Counter
  | Typ
  | SelfClosingTag
  | While
  | For
  | If
  | ElseIf
  | Else
  | From
  | To
  | Condition
  | OpenBrace
  | CloseBrace
  | Comment
  | StartTemplateString
  | EndTemplateString
  | StartInterpolation
  | EndInterpolation
deriving DecidableEq

/-- A token: lexeme text plus its category (interface Token in the source). -/
structure Token where
  value : String
  type : TokenType
deriving DecidableEq

/-- The reserved-word table (const specialIdentifiers in the source). -/
def specialIdentifiers : List String :=
  ["let", "const", "args", "arg", "return", "counter", "name", "type",
   "while", "for", "if", "elseIf", "else", "from", "to", "condition"]

/-- The double-quote character (written via its code point to keep the
development free of quote characters inside character literals). -/
def dquote : Char := Char.ofNat 34

/-- The single-quote character, by its code point. -/
def squote : Char := Char.ofNat 39

/-- Models isAlpha from the source: the character has distinct upper- and
lower-case forms (JavaScript toUpperCase/toLowerCase, approximated by the
ASCII case mapping of Char.toUpper/Char.toLower), or is an underscore or a
hyphen.  The undefined case of the source cannot arise here because the
embedding only applies the predicate to characters actually present. -/
def isAlpha (c : Char) : Bool :=
  c.toUpper != c.toLower || c == '_' || c == '-'

/-- Models isNumeric from the source: parseInt on a one-character string
yields a non-NaN value exactly for the decimal digits 0-9. -/
def isNumeric (c : Char) : Bool :=
  c.isDigit

/-- A character the word scan keeps consuming (the loop condition
isAlpha(src[0]) || isNumeric(src[0]) at line 146 of the source). -/
def isWordChar (c : Char) : Bool :=
  isAlpha c || isNumeric c

/-- Models the JavaScript regular-expression class \s used by
skipWhitespace: space, tab, line feed, vertical tab, form feed, carriage
return, and the Unicode space separators recognised by \s. -/
def isWhitespaceJS (c : Char) : Bool :=
  c == ' ' || c == '\t' || c == '\n' || c == '\x0b' || c == '\x0c' || c == '\r' ||
  c.toNat == 0xA0 || c.toNat == 0x1680 ||
  (0x2000 ≤ c.toNat && c.toNat ≤ 0x200A) ||
  c.toNat == 0x2028 || c.toNat == 0x2029 || c.toNat == 0x202F || c.toNat == 0x205F ||
  c.toNat == 0x3000 || c.toNat == 0xFEFF

/-- Hexadecimal digit, as accepted after 0x in a JavaScript numeric string. -/
def isHexDigitJS (c : Char) : Bool :=
  c.isDigit || ('a' ≤ c && c ≤ 'f') || ('A' ≤ c && c ≤ 'F')

/-- Octal digit, as accepted after 0o in a JavaScript numeric string. -/
def isOctalDigitJS (c : Char) : Bool :=
  '0' ≤ c && c ≤ '7'

/-- Binary digit, as accepted after 0b in a JavaScript numeric string. -/
def isBinaryDigitJS (c : Char) : Bool :=
  c == '0' || c == '1'

/-- A non-empty run of decimal digits. -/
def isDecDigits (s : List Char) : Bool :=
  !s.isEmpty && s.all Char.isDigit

/-- ExponentPart of the JavaScript string numeric grammar: e or E, an
optional sign, then at least one decimal digit, consuming the whole rest. -/
def isExponentPart : List Char → Bool
  | [] => false
  | e :: rest =>
    (e == 'e' || e == 'E') &&
      (match rest with
       | [] => false
       | s :: rest2 =>
         if s == '+' || s == '-' then isDecDigits rest2 else isDecDigits rest)

/-- StrUnsignedDecimalLiteral of the JavaScript string numeric grammar:
the word Infinity, or digits with an optional fraction and exponent, or a
fraction starting with the decimal point. -/
def isUnsignedDec (s : List Char) : Bool :=
  if s = "Infinity".toList then true
  else
    let d := s.takeWhile Char.isDigit
    let r := s.dropWhile Char.isDigit
    if d.isEmpty then
      match r with
      | '.' :: r2 =>
        let d2 := r2.takeWhile Char.isDigit
        let r3 := r2.dropWhile Char.isDigit
        !d2.isEmpty && (r3.isEmpty || isExponentPart r3)
      | _ => false
    else
      match r with
      | [] => true
      | '.' :: r2 => (r2.dropWhile Char.isDigit).isEmpty || isExponentPart (r2.dropWhile Char.isDigit)
      | _ => isExponentPart r

/-- StrDecimalLiteral: an optional sign followed by an unsigned decimal. -/
def isSignedDec (s : List Char) : Bool :=
  match s with
  | '+' :: rest => isUnsignedDec rest
  | '-' :: rest => isUnsignedDec rest
  | _ => isUnsignedDec s

/-- StrNumericLiteral: a hex, octal or binary integer literal (unsigned),
or a signed decimal literal. -/
def isStrNumericLiteral (s : List Char) : Bool :=
  match s with
  | '0' :: x :: rest =>
    if x == 'x' || x == 'X' then !rest.isEmpty && rest.all isHexDigitJS
    else if x == 'o' || x == 'O' then !rest.isEmpty && rest.all isOctalDigitJS
    else if x == 'b' || x == 'B' then !rest.isEmpty && rest.all isBinaryDigitJS
    else isSignedDec s
  | _ => isSignedDec s

/-- Models the test !isNaN(Number(word)) at line 150 of the source:
JavaScript Number() on a string trims whitespace, maps the empty remainder
to zero, and otherwise parses the StrNumericLiteral grammar, yielding NaN
exactly when the parse fails. -/
def jsNumberNotNaN (w : String) : Bool :=
  let t := ((w.toList.dropWhile isWhitespaceJS).reverse.dropWhile isWhitespaceJS).reverse
  t.isEmpty || isStrNumericLiteral t

/-- Models word.charAt(0).toUpperCase() + word.slice(1) from the source
(line 156), with the JavaScript case mapping approximated by the ASCII
Char.toUpper, which agrees on every reserved word of the table. -/
def capitalizeFirst (w : String) : String :=
  match w.toList with
  | [] => ""
  | c :: cs => String.mk (c.toUpper :: cs)

/-- The reverse lookup TokenType[n] by enumerant name, one arm per
declared enumerant of the source enum (lines 1-36). -/
def enumOfName : String → Option TokenType
  | "Number" => some .Number
  | "Name" => some .Name
  | "StringLiteral" => some .StringLiteral
  | "Identifier" => some .Identifier
  | "OpenParen" => some .OpenParen
  | "CloseParen" => some .CloseParen
  | "BinaryOperator" => some .BinaryOperator
  | "OpenBracket" => some .OpenBracket
  | "CloseBracket" => some .CloseBracket
  | "EndBracket" => some .EndBracket
  | "Equals" => some .Equals
  | "Let" => some .Let
  | "Const" => some .Const
  | "Args" => some .Args
  | "Arg" => some .Arg
  | "Return" => some .Return
  | "Counter" => some .Counter
  | "Type" => some .Typ
  | "SelfClosingTag" => some .SelfClosingTag
  | "While" => some .While
  | "For" => some .For
  | "If" => some .If
  | "ElseIf" => some .ElseIf
  | "Else" => some .Else
  | "From" => some .From
  | "To" => some .To
  | "Condition" => some .Condition
  | "OpenBrace" => some .OpenBrace
  | "CloseBrace" => some .CloseBrace
  | "Comment" => some .Comment
  | "StartTemplateString" => some .StartTemplateString
  | "EndTemplateString" => some .EndTemplateString
  | "StartInterpolation" => some .StartInterpolation
  | "EndInterpolation" => some .EndInterpolation
  | _ => none

/-- Classification of a scanned word (lines 150-161 of the source): a word
passing the JavaScript numeric test becomes Number; otherwise a word in the
reserved table gets the enumerant named by its capitalized form via the
runtime reverse-enum lookup (the source leaves that lookup unchecked; the
getD default is proved unreachable for table entries in the theorem for
claim C10); any other word is an Identifier. -/
def classifyWord (word : String) : TokenType :=
  if jsNumberNotNaN word then .Number
  else if specialIdentifiers.contains word then
    (enumOfName (capitalizeFirst word)).getD .Identifier
  else .Identifier

/-- One iteration of the scan loop after the whitespace skip (lines 94-166
of the source), on a non-empty cursor: the token pushed this iteration, if
any, and the remaining cursor.  Branch order follows the source if-else
chain; src[1] lookups are head? on the tail, with the undefined lookup past
the end compared unequal to every character. -/
def scanStep : List Char → Option Token × List Char
  | [] => (none, [])
  | c :: cs =>
    if c == '/' && cs.head? == some '/' then
      (none, List.dropWhile (fun x => x != '\n') (c :: cs))
    else if c == '<' then
      if cs.head? == some '/' then (some ⟨"</", .EndBracket⟩, cs.tail)
      else (some ⟨"<", .OpenBracket⟩, cs)
    else if c == '>' then (some ⟨">", .CloseBracket⟩, cs)
    else if c == '/' then
      if cs.head? == some '>' then (some ⟨"/>", .SelfClosingTag⟩, cs.tail)
      else (none, cs)
    else if c == '(' then (some ⟨"(", .OpenParen⟩, cs)
    else if c == ')' then (some ⟨")", .CloseParen⟩, cs)
    else if c == '\x7b' then (some ⟨"\x7b", .OpenBrace⟩, cs)
    else if c == '\x7d' then (some ⟨"\x7d", .CloseBrace⟩, cs)
    else if c == '+' || c == '-' || c == '*' || c == '/' then
      (some ⟨String.mk [c], .BinaryOperator⟩, cs)
    else if c == '=' then (some ⟨"=", .Equals⟩, cs)
    else if c == dquote || c == squote then
      (some ⟨String.mk (cs.takeWhile (fun x => x != c)), .StringLiteral⟩,
        (cs.dropWhile (fun x => x != c)).tail)
    else if isNumeric c || isAlpha c then
      (some ⟨String.mk ((c :: cs).takeWhile isWordChar),
          classifyWord (String.mk ((c :: cs).takeWhile isWordChar))⟩,
        (c :: cs).dropWhile isWordChar)
    else (none, cs)

/-- The scan loop (lines 91-167 of the source), fuelled: while the cursor
is non-empty, skip whitespace, then run one scanStep iteration; a scanStep
returning an empty token list models the iterations that only discard.
Every iteration on a non-empty cursor consumes at least one character, so
fuel equal to the cursor length is always sufficient (proved below). -/
def tokenizeGo : Nat → List Char → List Token
  | 0, _ => []
  | fuel + 1, src =>
    if src.isEmpty then []
    else if (src.dropWhile isWhitespaceJS).isEmpty then []
    else
      (scanStep (src.dropWhile isWhitespaceJS)).1.toList ++
        tokenizeGo fuel (scanStep (src.dropWhile isWhitespaceJS)).2

/-- The exported tokenize function of the source. -/
def tokenize (source : String) : List Token :=
  tokenizeGo (source.length + 1) source.toList

theorem tail_length_le (l : List Char) : l.tail.length ≤ l.length := by
  cases l <;> simp

theorem dropWhile_length_le (p : Char → Bool) (l : List Char) :
    (l.dropWhile p).length ≤ l.length := by
  induction l with
  | nil => simp
  | cons a as ih =>
    rw [List.dropWhile_cons]
    split
    · exact le_trans ih (by simp)
    · simp

theorem tokenizeGo_nil (f : Nat) : tokenizeGo f [] = [] := by
  cases f <;> rfl

theorem tokenizeGo_succ (f : Nat) (src : List Char) :
    tokenizeGo (f + 1) src =
      if (src.dropWhile isWhitespaceJS).isEmpty then []
      else
        (scanStep (src.dropWhile isWhitespaceJS)).1.toList ++
          tokenizeGo f (scanStep (src.dropWhile isWhitespaceJS)).2 := by
  cases src <;> rfl

theorem scanStep_rest_le (c : Char) (cs : List Char) :
    (scanStep (c :: cs)).2.length ≤ cs.length := by
  rw [scanStep]
  by_cases h1 : (c == '/' && cs.head? == some '/') = true
  · rw [if_pos h1]
    obtain ⟨hc, -⟩ : c = '/' ∧ cs.head? = some '/' := by simpa using h1
    subst hc
    rw [List.dropWhile_cons, if_pos (by decide)]
    exact dropWhile_length_le _ _
  rw [if_neg h1]
  by_cases h2 : (c == '<') = true
  · rw [if_pos h2]
    by_cases h3 : (cs.head? == some '/') = true
    · rw [if_pos h3]
      exact tail_length_le cs
    · rw [if_neg h3]
  rw [if_neg h2]
  by_cases h4 : (c == '>') = true
  · rw [if_pos h4]
  rw [if_neg h4]
  by_cases h5 : (c == '/') = true
  · rw [if_pos h5]
    by_cases h6 : (cs.head? == some '>') = true
    · rw [if_pos h6]
      exact tail_length_le cs
    · rw [if_neg h6]
  rw [if_neg h5]
  by_cases h7 : (c == '(') = true
  · rw [if_pos h7]
  rw [if_neg h7]
  by_cases h8 : (c == ')') = true
  · rw [if_pos h8]
  rw [if_neg h8]
  by_cases h9 : (c == '\x7b') = true
  · rw [if_pos h9]
  rw [if_neg h9]
  by_cases h10 : (c == '\x7d') = true
  · rw [if_pos h10]
  rw [if_neg h10]
  by_cases h11 : (c == '+' || c == '-' || c == '*' || c == '/') = true
  · rw [if_pos h11]
  rw [if_neg h11]
  by_cases h12 : (c == '=') = true
  · rw [if_pos h12]
  rw [if_neg h12]
  by_cases h13 : (c == dquote || c == squote) = true
  · rw [if_pos h13]
    exact le_trans (tail_length_le _) (dropWhile_length_le _ _)
  rw [if_neg h13]
  by_cases h14 : (isNumeric c || isAlpha c) = true
  · rw [if_pos h14]
    have hw : isWordChar c = true := by
      unfold isWordChar
      rcases (by simpa using h14 : isNumeric c = true ∨ isAlpha c = true) with h | h <;>
        simp [h]
    rw [List.dropWhile_cons, if_pos hw]
    exact dropWhile_length_le _ _
  rw [if_neg h14]

theorem tokenizeGo_fuel : ∀ (f g : Nat) (src : List Char),
    src.length ≤ f → src.length ≤ g → tokenizeGo f src = tokenizeGo g src := by
  intro f
  induction f with
  | zero =>
    intro g src hf _
    have hsrc : src = [] := List.length_eq_zero.mp (Nat.le_zero.mp hf)
    subst hsrc
    rw [tokenizeGo_nil, tokenizeGo_nil]
  | succ f ih =>
    intro g src hf hg
    cases src with
    | nil => rw [tokenizeGo_nil, tokenizeGo_nil]
    | cons a as =>
      cases g with
      | zero => simp at hg
      | succ g2 =>
        rw [tokenizeGo_succ, tokenizeGo_succ]
        by_cases he : ((a :: as).dropWhile isWhitespaceJS).isEmpty = true
        · rw [if_pos he, if_pos he]
        · rw [if_neg he, if_neg he]
          obtain ⟨c, cs, hcc⟩ : ∃ c cs, (a :: as).dropWhile isWhitespaceJS = c :: cs := by
            cases hd : (a :: as).dropWhile isWhitespaceJS with
            | nil => rw [hd] at he; simp at he
            | cons c cs => exact ⟨c, cs, rfl⟩
          have h1 : (scanStep ((a :: as).dropWhile isWhitespaceJS)).2.length ≤ cs.length := by
            rw [hcc]; exact scanStep_rest_le c cs
          have h2 : ((a :: as).dropWhile isWhitespaceJS).length ≤ (a :: as).length :=
            dropWhile_length_le _ _
          have h3 : cs.length + 1 ≤ as.length + 1 := by
            rw [hcc] at h2; simpa using h2
          simp only [List.length_cons] at hf hg
          congr 1
          apply ih <;> omega

theorem tokenizeGo_length_le : ∀ (f : Nat) (src : List Char),
    (tokenizeGo f src).length ≤ src.length := by
  intro f
  induction f with
  | zero => intro src; simp [tokenizeGo]
  | succ f ih =>
    intro src
    cases src with
    | nil => rw [tokenizeGo_nil]; simp
    | cons a as =>
      rw [tokenizeGo_succ]
      by_cases he : ((a :: as).dropWhile isWhitespaceJS).isEmpty = true
      · rw [if_pos he]; simp
      · rw [if_neg he]
        obtain ⟨c, cs, hcc⟩ : ∃ c cs, (a :: as).dropWhile isWhitespaceJS = c :: cs := by
          cases hd : (a :: as).dropWhile isWhitespaceJS with
          | nil => rw [hd] at he; simp at he
          | cons c cs => exact ⟨c, cs, rfl⟩
        have h1 : (scanStep ((a :: as).dropWhile isWhitespaceJS)).2.length ≤ cs.length := by
          rw [hcc]; exact scanStep_rest_le c cs
        have h2 : ((a :: as).dropWhile isWhitespaceJS).length ≤ (a :: as).length :=
          dropWhile_length_le _ _
        have h3 : cs.length + 1 ≤ as.length + 1 := by
          rw [hcc] at h2; simpa using h2
        have h4 : (scanStep ((a :: as).dropWhile isWhitespaceJS)).1.toList.length ≤ 1 := by
          cases (scanStep ((a :: as).dropWhile isWhitespaceJS)).1 <;> simp
        have h5 := ih (scanStep ((a :: as).dropWhile isWhitespaceJS)).2
        rw [List.length_append]
        simp only [List.length_cons]
        omega

theorem mem_tokenizeGo {P : Token → Prop}
    (hstep : ∀ c cs t rest, scanStep (c :: cs) = (some t, rest) → P t) :
    ∀ (f : Nat) (src : List Char) (t : Token), t ∈ tokenizeGo f src → P t := by
  intro f
  induction f with
  | zero => intro src t ht; simp [tokenizeGo] at ht
  | succ f ih =>
    intro src t ht
    cases src with
    | nil => rw [tokenizeGo_nil] at ht; simp at ht
    | cons a as =>
      rw [tokenizeGo_succ] at ht
      by_cases he : ((a :: as).dropWhile isWhitespaceJS).isEmpty = true
      · rw [if_pos he] at ht; simp at ht
      · rw [if_neg he] at ht
        obtain ⟨c, cs, hcc⟩ : ∃ c cs, (a :: as).dropWhile isWhitespaceJS = c :: cs := by
          cases hd : (a :: as).dropWhile isWhitespaceJS with
          | nil => rw [hd] at he; simp at he
          | cons c cs => exact ⟨c, cs, rfl⟩
        rw [List.mem_append] at ht
        rcases ht with ht | ht
        · have hsome : (scanStep ((a :: as).dropWhile isWhitespaceJS)).1 = some t := by
            cases hopt : (scanStep ((a :: as).dropWhile isWhitespaceJS)).1 with
            | none => rw [hopt] at ht; simp at ht
            | some t2 =>
              rw [hopt] at ht
              simp only [Option.toList_some, List.mem_singleton] at ht
              rw [ht]
          rw [hcc] at hsome
          exact hstep c cs t (scanStep (c :: cs)).2 (by rw [← hsome])
        · exact ih _ t ht

theorem classifyWord_spec (w : String) :
    (classifyWord w ≠ TokenType.Comment ∧ classifyWord w ≠ TokenType.StartTemplateString ∧
     classifyWord w ≠ TokenType.EndTemplateString ∧
     classifyWord w ≠ TokenType.StartInterpolation ∧
     classifyWord w ≠ TokenType.EndInterpolation) ∧
    classifyWord w ≠ TokenType.BinaryOperator ∧
    (classifyWord w = TokenType.Number → jsNumberNotNaN w = true) := by
  unfold classifyWord
  by_cases hn : jsNumberNotNaN w = true
  · rw [if_pos hn]
    exact ⟨by decide, by decide, fun _ => hn⟩
  rw [if_neg hn]
  by_cases hk : specialIdentifiers.contains w = true
  · rw [if_pos hk]
    have hmem : w ∈ specialIdentifiers := by simpa using hk
    simp only [specialIdentifiers, List.mem_cons, List.not_mem_nil, or_false] at hmem
    rcases hmem with rfl | rfl | rfl | rfl | rfl | rfl | rfl | rfl | rfl | rfl | rfl | rfl |
      rfl | rfl | rfl | rfl <;> decide
  · rw [if_neg hk]
    exact ⟨by decide, by decide, fun hEq => absurd hEq (by decide)⟩

theorem scanStep_some_spec {c : Char} {cs : List Char} {t : Token} {rest : List Char}
    (h : scanStep (c :: cs) = (some t, rest)) :
    (t.type ≠ TokenType.Comment ∧ t.type ≠ TokenType.StartTemplateString ∧
     t.type ≠ TokenType.EndTemplateString ∧ t.type ≠ TokenType.StartInterpolation ∧
     t.type ≠ TokenType.EndInterpolation) ∧
    (t.type = TokenType.BinaryOperator →
      (t.value = "+" ∨ t.value = "-" ∨ t.value = "*")) ∧
    (t.type = TokenType.Number → jsNumberNotNaN t.value = true) ∧
    (t.value.toList.head? = some '-' →
      t.type = TokenType.BinaryOperator ∨ t.type = TokenType.StringLiteral) := by
  rw [scanStep] at h
  by_cases h1 : (c == '/' && cs.head? == some '/') = true
  · rw [if_pos h1] at h; simp at h
  rw [if_neg h1] at h
  by_cases h2 : (c == '<') = true
  · rw [if_pos h2] at h
    by_cases h3 : (cs.head? == some '/') = true
    · rw [if_pos h3] at h
      rw [Prod.mk.injEq] at h
      obtain ⟨h', -⟩ := h
      rw [Option.some.injEq] at h'
      subst h'
      decide
    · rw [if_neg h3] at h
      rw [Prod.mk.injEq] at h
      obtain ⟨h', -⟩ := h
      rw [Option.some.injEq] at h'
      subst h'
      decide
  rw [if_neg h2] at h
  by_cases h4 : (c == '>') = true
  · rw [if_pos h4] at h
    rw [Prod.mk.injEq] at h
    obtain ⟨h', -⟩ := h
    rw [Option.some.injEq] at h'
    subst h'
    decide
  rw [if_neg h4] at h
  by_cases h5 : (c == '/') = true
  · rw [if_pos h5] at h
    by_cases h6 : (cs.head? == some '>') = true
    · rw [if_pos h6] at h
      rw [Prod.mk.injEq] at h
      obtain ⟨h', -⟩ := h
      rw [Option.some.injEq] at h'
      subst h'
      decide
    · rw [if_neg h6] at h; simp at h
  rw [if_neg h5] at h
  by_cases h7 : (c == '(') = true
  · rw [if_pos h7] at h
    rw [Prod.mk.injEq] at h
    obtain ⟨h', -⟩ := h
    rw [Option.some.injEq] at h'
    subst h'
    decide
  rw [if_neg h7] at h
  by_cases h8 : (c == ')') = true
  · rw [if_pos h8] at h
    rw [Prod.mk.injEq] at h
    obtain ⟨h', -⟩ := h
    rw [Option.some.injEq] at h'
    subst h'
    decide
  rw [if_neg h8] at h
  by_cases h9 : (c == '\x7b') = true
  · rw [if_pos h9] at h
    rw [Prod.mk.injEq] at h
    obtain ⟨h', -⟩ := h
    rw [Option.some.injEq] at h'
    subst h'
    decide
  rw [if_neg h9] at h
  by_cases h10 : (c == '\x7d') = true
  · rw [if_pos h10] at h
    rw [Prod.mk.injEq] at h
    obtain ⟨h', -⟩ := h
    rw [Option.some.injEq] at h'
    subst h'
    decide
  rw [if_neg h10] at h
  by_cases h11 : (c == '+' || c == '-' || c == '*' || c == '/') = true
  · rw [if_pos h11] at h
    rw [Prod.mk.injEq] at h
    obtain ⟨h', -⟩ := h
    rw [Option.some.injEq] at h'
    subst h'
    have hc : c = '+' ∨ c = '-' ∨ c = '*' ∨ c = '/' := by simpa [or_assoc] using h11
    have hc5 : ¬(c = '/') := by simpa using h5
    refine ⟨⟨by simp, by simp, by simp, by simp, by simp⟩, fun _ => ?_,
      fun hEq => by simp at hEq, fun _ => Or.inl rfl⟩
    rcases hc with rfl | rfl | rfl | rfl
    · exact Or.inl rfl
    · exact Or.inr (Or.inl rfl)
    · exact Or.inr (Or.inr rfl)
    · exact absurd rfl hc5
  rw [if_neg h11] at h
  by_cases h12 : (c == '=') = true
  · rw [if_pos h12] at h
    rw [Prod.mk.injEq] at h
    obtain ⟨h', -⟩ := h
    rw [Option.some.injEq] at h'
    subst h'
    decide
  rw [if_neg h12] at h
  by_cases h13 : (c == dquote || c == squote) = true
  · rw [if_pos h13] at h
    rw [Prod.mk.injEq] at h
    obtain ⟨h', -⟩ := h
    rw [Option.some.injEq] at h'
    subst h'
    exact ⟨⟨by simp, by simp, by simp, by simp, by simp⟩, fun hEq => by simp at hEq,
      fun hEq => by simp at hEq, fun _ => Or.inr rfl⟩
  rw [if_neg h13] at h
  by_cases h14 : (isNumeric c || isAlpha c) = true
  · rw [if_pos h14] at h
    rw [Prod.mk.injEq] at h
    obtain ⟨h', -⟩ := h
    rw [Option.some.injEq] at h'
    subst h'
    obtain ⟨hA, hB, hC⟩ := classifyWord_spec (String.mk ((c :: cs).takeWhile isWordChar))
    have hw : isWordChar c = true := by
      unfold isWordChar
      rcases (by simpa using h14 : isNumeric c = true ∨ isAlpha c = true) with hcc | hcc <;>
        simp [hcc]
    have hcm : ¬(c = '-') := by
      intro hcc
      subst hcc
      exact h11 (by decide)
    refine ⟨hA, fun hb => absurd hb hB, hC, fun hh => ?_⟩
    have hh2 : ((c :: cs).takeWhile isWordChar).head? = some '-' := hh
    rw [List.takeWhile_cons, if_pos hw] at hh2
    simp only [List.head?_cons, Option.some.injEq] at hh2
    exact absurd hh2 hcm
  rw [if_neg h14] at h
  simp at h

theorem scanStep_quote (q : Char) (cs : List Char) (hq : q = dquote ∨ q = squote) :
    scanStep (q :: cs) =
      (some (Token.mk (String.mk (cs.takeWhile (fun x => x != q))) TokenType.StringLiteral),
        (cs.dropWhile (fun x => x != q)).tail) := by
  rcases hq with rfl | rfl <;> rfl

theorem dropWhile_append_of_all (p : Char → Bool) :
    ∀ (w s : List Char), w.all p = true →
      (w ++ s).dropWhile p = s.dropWhile p := by
  intro w
  induction w with
  | nil => intro s _; rfl
  | cons a as ih =>
    intro s hall
    simp only [List.all_cons, Bool.and_eq_true] at hall
    rw [List.cons_append, List.dropWhile_cons, if_pos hall.1]
    exact ih s hall.2

theorem takeWhile_ne_of_not_mem (q : Char) :
    ∀ (l : List Char), q ∉ l → l.takeWhile (fun x => x != q) = l := by
  intro l
  induction l with
  | nil => intro _; rfl
  | cons a as ih =>
    intro h
    simp only [List.mem_cons, not_or] at h
    have haq : (a != q) = true := by
      simp only [bne_iff_ne, ne_eq]
      exact fun hh => h.1 hh.symm
    rw [List.takeWhile_cons, if_pos haq, ih h.2]

theorem dropWhile_ne_of_not_mem (q : Char) :
    ∀ (l : List Char), q ∉ l → l.dropWhile (fun x => x != q) = [] := by
  intro l
  induction l with
  | nil => intro _; rfl
  | cons a as ih =>
    intro h
    simp only [List.mem_cons, not_or] at h
    have haq : (a != q) = true := by
      simp only [bne_iff_ne, ne_eq]
      exact fun hh => h.1 hh.symm
    rw [List.dropWhile_cons, if_pos haq, ih h.2]

theorem tokenizeGo_ws_prefix (f g : Nat) (wl sl : List Char)
    (hall : wl.all isWhitespaceJS = true)
    (hf : (wl ++ sl).length ≤ f) (hg : sl.length ≤ g) :
    tokenizeGo f (wl ++ sl) = tokenizeGo g sl := by
  cases wl with
  | nil => simpa using tokenizeGo_fuel f g sl (by simpa using hf) hg
  | cons a as =>
    cases f with
    | zero =>
      simp only [List.cons_append, List.length_cons] at hf
      omega
    | succ f2 =>
      rw [tokenizeGo_succ]
      rw [dropWhile_append_of_all _ _ _ hall]
      cases sl with
      | nil => rw [tokenizeGo_nil]; simp
      | cons b bs =>
        cases g with
        | zero => simp at hg
        | succ g2 =>
          rw [tokenizeGo_succ]
          by_cases he : ((b :: bs).dropWhile isWhitespaceJS).isEmpty = true
          · rw [if_pos he, if_pos he]
          · rw [if_neg he, if_neg he]
            obtain ⟨c2, cs2, hcc⟩ :
                ∃ c2 cs2, (b :: bs).dropWhile isWhitespaceJS = c2 :: cs2 := by
              cases hd : (b :: bs).dropWhile isWhitespaceJS with
              | nil => rw [hd] at he; simp at he
              | cons c2 cs2 => exact ⟨c2, cs2, rfl⟩
            have hr : (scanStep ((b :: bs).dropWhile isWhitespaceJS)).2.length ≤ cs2.length := by
              rw [hcc]; exact scanStep_rest_le c2 cs2
            have hlen : ((b :: bs).dropWhile isWhitespaceJS).length ≤ (b :: bs).length :=
              dropWhile_length_le _ _
            have h3 : cs2.length + 1 ≤ bs.length + 1 := by
              rw [hcc] at hlen; simpa using hlen
            simp only [List.length_append, List.length_cons] at hf hg
            congr 1
            apply tokenizeGo_fuel <;> omega

theorem digit_ne (d x : Char) (hd : d.isDigit = true) (hx : x.isDigit = false) :
    (d == x) = false := by
  rw [beq_eq_false_iff_ne]
  intro h
  rw [h] at hd
  rw [hd] at hx
  cases hx

theorem digit_mem (x : Char) (hx : x.isDigit = true) :
    x ∈ (['0', '1', '2', '3', '4', '5', '6', '7', '8', '9'] : List Char) := by
  obtain ⟨h1, h2⟩ : 48 ≤ x.toNat ∧ x.toNat ≤ 57 := by
    simp only [Char.isDigit, Bool.and_eq_true, decide_eq_true_eq] at hx
    exact ⟨UInt32.le_def.mp hx.1, UInt32.le_def.mp hx.2⟩
  have hofn := Char.ofNat_toNat x
  have h10 : x.toNat = 48 ∨ x.toNat = 49 ∨ x.toNat = 50 ∨ x.toNat = 51 ∨ x.toNat = 52 ∨
      x.toNat = 53 ∨ x.toNat = 54 ∨ x.toNat = 55 ∨ x.toNat = 56 ∨ x.toNat = 57 := by omega
  rcases h10 with hk | hk | hk | hk | hk | hk | hk | hk | hk | hk <;>
    (rw [hk] at hofn; rw [← hofn]; decide)

theorem digit_char_facts (x : Char) (hx : x.isDigit = true) :
    isWhitespaceJS x = false ∧ isWordChar x = true := by
  have hm := digit_mem x hx
  simp only [List.mem_cons, List.not_mem_nil, or_false] at hm
  rcases hm with rfl | rfl | rfl | rfl | rfl | rfl | rfl | rfl | rfl | rfl <;> decide

theorem takeWhile_all (p : Char → Bool) :
    ∀ (l : List Char), l.all p = true → l.takeWhile p = l := by
  intro l
  induction l with
  | nil => intro _; rfl
  | cons a as ih =>
    intro h
    simp only [List.all_cons, Bool.and_eq_true] at h
    rw [List.takeWhile_cons, if_pos h.1, ih h.2]

theorem dropWhile_all (p : Char → Bool) :
    ∀ (l : List Char), l.all p = true → l.dropWhile p = [] := by
  intro l
  induction l with
  | nil => intro _; rfl
  | cons a as ih =>
    intro h
    simp only [List.all_cons, Bool.and_eq_true] at h
    rw [List.dropWhile_cons, if_pos h.1, ih h.2]

theorem dropWhile_not_head (p : Char → Bool) (l : List Char)
    (h : ∀ x ∈ l, p x = false) : l.dropWhile p = l := by
  cases l with
  | nil => rfl
  | cons a as => rw [List.dropWhile_cons, if_neg (by simp [h a (by simp)])]

theorem isUnsignedDec_digits (d : Char) (ds : List Char) (hd : d.isDigit = true)
    (hds : ds.all Char.isDigit = true) : isUnsignedDec (d :: ds) = true := by
  have hall : (d :: ds).all Char.isDigit = true := by
    simp only [List.all_cons, Bool.and_eq_true]
    exact ⟨hd, hds⟩
  unfold isUnsignedDec
  rw [if_neg ?hinf]
  case hinf =>
    intro h
    injection h with h1 _
    rw [h1] at hd
    exact absurd hd (by decide)
  rw [takeWhile_all _ _ hall, dropWhile_all _ _ hall]
  simp

theorem isSignedDec_digit_head (d : Char) (ds : List Char) (hd : d.isDigit = true)
    (hds : ds.all Char.isDigit = true) : isSignedDec (d :: ds) = true := by
  unfold isSignedDec
  split
  · rename_i rest heq
    injection heq with h1 _
    rw [h1] at hd
    exact absurd hd (by decide)
  · rename_i rest heq
    injection heq with h1 _
    rw [h1] at hd
    exact absurd hd (by decide)
  · exact isUnsignedDec_digits d ds hd hds

theorem isStrNumericLiteral_digits (d : Char) (ds : List Char) (hd : d.isDigit = true)
    (hds : ds.all Char.isDigit = true) : isStrNumericLiteral (d :: ds) = true := by
  unfold isStrNumericLiteral
  split
  · rename_i x rest heq
    injection heq with h1 h2
    subst h2
    have hx : x.isDigit = true ∧ rest.all Char.isDigit = true := by
      simpa [List.all_cons] using hds
    rw [if_neg (by simp [digit_ne x 'x' hx.1 (by decide), digit_ne x 'X' hx.1 (by decide)]),
      if_neg (by simp [digit_ne x 'o' hx.1 (by decide), digit_ne x 'O' hx.1 (by decide)]),
      if_neg (by simp [digit_ne x 'b' hx.1 (by decide), digit_ne x 'B' hx.1 (by decide)])]
    rw [h1] at hd ⊢
    exact isSignedDec_digit_head _ _ hd (by simpa [List.all_cons] using hds)
  · exact isSignedDec_digit_head d ds hd hds

theorem jsNumberNotNaN_digits (d : Char) (ds : List Char) (hd : d.isDigit = true)
    (hds : ds.all Char.isDigit = true) : jsNumberNotNaN (String.mk (d :: ds)) = true := by
  have hnws : ∀ x ∈ d :: ds, isWhitespaceJS x = false := by
    intro x hx
    rcases List.mem_cons.mp hx with rfl | hx2
    · exact (digit_char_facts x hd).1
    · exact (digit_char_facts x (List.all_eq_true.mp hds x hx2)).1
  unfold jsNumberNotNaN
  have ht : (String.mk (d :: ds)).toList = d :: ds := rfl
  rw [ht, dropWhile_not_head _ _ hnws,
    dropWhile_not_head _ _ (fun x hx => hnws x (List.mem_reverse.mp hx)),
    List.reverse_reverse]
  simp [isStrNumericLiteral_digits d ds hd hds]

theorem classifyWord_digits (d : Char) (ds : List Char) (hd : d.isDigit = true)
    (hds : ds.all Char.isDigit = true) :
    classifyWord (String.mk (d :: ds)) = TokenType.Number := by
  unfold classifyWord
  rw [if_pos (jsNumberNotNaN_digits d ds hd hds)]

theorem scanStep_digit_head (d : Char) (ds : List Char) (hd : d.isDigit = true) :
    scanStep (d :: ds) =
      (some (Token.mk (String.mk ((d :: ds).takeWhile isWordChar))
          (classifyWord (String.mk ((d :: ds).takeWhile isWordChar)))),
        (d :: ds).dropWhile isWordChar) := by
  have hm := digit_mem d hd
  simp only [List.mem_cons, List.not_mem_nil, or_false] at hm
  rcases hm with rfl | rfl | rfl | rfl | rfl | rfl | rfl | rfl | rfl | rfl <;> rfl

/-- Claim C1, counterexample: the scan loop does emit the type Name, for the
reserved word name of the special-identifier table, so the original claim
fails at input "name". -/
theorem tokenize_name_yields_Name :
    tokenize "name" = [Token.mk "name" TokenType.Name] := by decide

/-- Claim C1 (amended): no token returned by tokenize ever has type Comment,
StartTemplateString, EndTemplateString, StartInterpolation or
EndInterpolation; the sixth type listed by the original claim, Name, is
emitted for the reserved word name. -/
theorem reserved_types_never_emitted (s : String) (t : Token) (h : t ∈ tokenize s) :
    t.type ≠ TokenType.Comment ∧ t.type ≠ TokenType.StartTemplateString ∧
    t.type ≠ TokenType.EndTemplateString ∧ t.type ≠ TokenType.StartInterpolation ∧
    t.type ≠ TokenType.EndInterpolation :=
  mem_tokenizeGo (fun _ _ _ _ hscan => (scanStep_some_spec hscan).1) _ _ t h

/-- Witness for the theorem of claim C1 at the concrete input "let". -/
theorem reserved_types_never_emitted_witness :
    (Token.mk "let" TokenType.Let).type ≠ TokenType.Comment ∧
    (Token.mk "let" TokenType.Let).type ≠ TokenType.StartTemplateString ∧
    (Token.mk "let" TokenType.Let).type ≠ TokenType.EndTemplateString ∧
    (Token.mk "let" TokenType.Let).type ≠ TokenType.StartInterpolation ∧
    (Token.mk "let" TokenType.Let).type ≠ TokenType.EndInterpolation :=
  reserved_types_never_emitted "let" (Token.mk "let" TokenType.Let) (by decide)

/-- Claim C2, counterexample: tokenize "4/2" returns two Number tokens, not
the three tokens of the original claim; the lone slash is discarded. -/
theorem tokenize_div_counterexample :
    tokenize "4/2" = [Token.mk "4" TokenType.Number, Token.mk "2" TokenType.Number] ∧
    tokenize "4/2" ≠
      [Token.mk "4" TokenType.Number, Token.mk "/" TokenType.BinaryOperator,
        Token.mk "2" TokenType.Number] := by decide

/-- Claim C2 (amended): a slash that is not part of a comment, an end
bracket or a self-closing tag is silently discarded and never reaches the
binary-operator branch: every BinaryOperator token has lexeme plus, minus
or star, and tokenize "4/2" is Number "4" followed by Number "2". -/
theorem slash_never_binary_operator (s : String) (t : Token) (h : t ∈ tokenize s)
    (hb : t.type = TokenType.BinaryOperator) :
    (t.value = "+" ∨ t.value = "-" ∨ t.value = "*") ∧
    tokenize "4/2" = [Token.mk "4" TokenType.Number, Token.mk "2" TokenType.Number] :=
  ⟨mem_tokenizeGo
      (P := fun t2 => t2.type = TokenType.BinaryOperator →
        (t2.value = "+" ∨ t2.value = "-" ∨ t2.value = "*"))
      (fun _ _ _ _ hscan => (scanStep_some_spec hscan).2.1) _ _ t h hb,
    by decide⟩

/-- Witness for the theorem of claim C2 at the concrete input "1*2". -/
theorem slash_never_binary_operator_witness :
    ((Token.mk "*" TokenType.BinaryOperator).value = "+" ∨
     (Token.mk "*" TokenType.BinaryOperator).value = "-" ∨
     (Token.mk "*" TokenType.BinaryOperator).value = "*") ∧
    tokenize "4/2" = [Token.mk "4" TokenType.Number, Token.mk "2" TokenType.Number] :=
  slash_never_binary_operator "1*2" (Token.mk "*" TokenType.BinaryOperator)
    (by decide) (by decide)

/-- Claim C3, counterexample: the word 1e1 contains the alpha character e,
yet tokenize classifies it as a Number token, because the JavaScript
Number() conversion accepts exponent notation. -/
theorem alpha_word_lexed_as_number :
    tokenize "1e1" = [Token.mk "1e1" TokenType.Number] ∧
    ("1e1".toList.any isAlpha) = true := by decide

/-- Claim C3 (amended): a word token is classified Number exactly when its
whole lexeme passes the JavaScript Number() test, which accepts some words
containing alpha characters (exponent, hex, octal, binary and Infinity
forms); every Number token lexeme passes that test, and tokenize "42abc"
is the single Identifier token "42abc". -/
theorem number_token_parses_as_js_number (s : String) (t : Token) (h : t ∈ tokenize s)
    (hn : t.type = TokenType.Number) :
    jsNumberNotNaN t.value = true ∧
    tokenize "42abc" = [Token.mk "42abc" TokenType.Identifier] :=
  ⟨mem_tokenizeGo
      (P := fun t2 => t2.type = TokenType.Number → jsNumberNotNaN t2.value = true)
      (fun _ _ _ _ hscan => (scanStep_some_spec hscan).2.2.1) _ _ t h hn,
    by decide⟩

/-- Witness for the theorem of claim C3 at the concrete input "42". -/
theorem number_token_parses_as_js_number_witness :
    jsNumberNotNaN (Token.mk "42" TokenType.Number).value = true ∧
    tokenize "42abc" = [Token.mk "42abc" TokenType.Identifier] :=
  number_token_parses_as_js_number "42" (Token.mk "42" TokenType.Number)
    (by decide) (by decide)

/-- Claim C4, counterexample: on input "-5" the minus sign is not absorbed
into a word token; it is emitted as a BinaryOperator token followed by a
Number token, because the operator branch precedes the word scan. -/
theorem leading_minus_counterexample :
    tokenize "-5" =
      [Token.mk "-" TokenType.BinaryOperator, Token.mk "5" TokenType.Number] ∧
    (tokenize "-5").length ≠ 1 := by decide

/-- Claim C4 (amended): for every input consisting of a minus sign
immediately followed by decimal digits, the minus sign is emitted as a
BinaryOperator token and the digits as a following Number token, because
the operator branch precedes the word scan; the hyphen acts as a word
character only in continuation position: a token lexeme can begin with a
hyphen only as the BinaryOperator minus itself or inside a StringLiteral,
never as a word, as in the single Identifier token a-5. -/
theorem leading_minus_scans_as_operator_then_number (ds : List Char)
    (hne : ds ≠ []) (hds : ds.all Char.isDigit = true) :
    tokenize (String.mk ('-' :: ds)) =
      [Token.mk "-" TokenType.BinaryOperator, Token.mk (String.mk ds) TokenType.Number] ∧
    (∀ (s : String) (t : Token), t ∈ tokenize s →
      t.value.toList.head? = some '-' →
      t.type = TokenType.BinaryOperator ∨ t.type = TokenType.StringLiteral) ∧
    tokenize "a-5" = [Token.mk "a-5" TokenType.Identifier] := by
  refine ⟨?_, ?_, by decide⟩
  · obtain ⟨d, ds2, rfl⟩ : ∃ d ds2, ds = d :: ds2 := by
      cases ds with
      | nil => exact absurd rfl hne
      | cons d ds2 => exact ⟨d, ds2, rfl⟩
    have hdd : d.isDigit = true ∧ ds2.all Char.isDigit = true := by
      simpa [List.all_cons] using hds
    show tokenizeGo ((String.mk ('-' :: d :: ds2)).length + 1) ('-' :: d :: ds2) = _
    rw [tokenizeGo_succ]
    rw [List.dropWhile_cons, if_neg (show ¬(isWhitespaceJS '-' = true) by decide)]
    rw [if_neg (show ¬(('-' :: d :: ds2).isEmpty = true) by simp)]
    have hs1 : scanStep ('-' :: d :: ds2) =
        (some (Token.mk (String.mk ['-']) TokenType.BinaryOperator), d :: ds2) := rfl
    rw [hs1]
    have hf : tokenizeGo ((String.mk ('-' :: d :: ds2)).length) (d :: ds2) =
        tokenizeGo (ds2.length + 1 + 1) (d :: ds2) := by
      apply tokenizeGo_fuel
      · have h1 : (String.mk ('-' :: d :: ds2)).length = ds2.length + 2 := rfl
        simp only [List.length_cons]
        omega
      · simp only [List.length_cons]
        omega
    rw [hf, tokenizeGo_succ]
    rw [List.dropWhile_cons,
      if_neg (show ¬(isWhitespaceJS d = true) by simp [(digit_char_facts d hdd.1).1])]
    rw [if_neg (show ¬((d :: ds2).isEmpty = true) by simp)]
    rw [scanStep_digit_head d ds2 hdd.1]
    have hallw : (d :: ds2).all isWordChar = true := by
      rw [List.all_eq_true]
      intro x hx
      rcases List.mem_cons.mp hx with rfl | hx2
      · exact (digit_char_facts x hdd.1).2
      · exact (digit_char_facts x (List.all_eq_true.mp hdd.2 x hx2)).2
    rw [takeWhile_all _ _ hallw, dropWhile_all _ _ hallw,
      classifyWord_digits d ds2 hdd.1 hdd.2]
    simp [tokenizeGo_nil]
  · intro s t ht hh
    exact mem_tokenizeGo
      (P := fun t2 => t2.value.toList.head? = some '-' →
        t2.type = TokenType.BinaryOperator ∨ t2.type = TokenType.StringLiteral)
      (fun _ _ _ _ hscan => (scanStep_some_spec hscan).2.2.2) _ _ t ht hh

/-- Witness for the theorem of claim C4 at the concrete digit string "5". -/
theorem leading_minus_scans_as_operator_then_number_witness :
    tokenize (String.mk ['-', '5']) =
      [Token.mk "-" TokenType.BinaryOperator, Token.mk (String.mk ['5']) TokenType.Number] ∧
    tokenize "a-5" = [Token.mk "a-5" TokenType.Identifier] :=
  ⟨(leading_minus_scans_as_operator_then_number ['5'] (by decide) (by decide)).1,
    (leading_minus_scans_as_operator_then_number ['5'] (by decide) (by decide)).2.2⟩

/-- Claim C5: tokenize is total, returns at most one token per input
character, and its result is already stable at any fuel bound of at least
the input length, the formal counterpart of the loop consuming at least
one character per iteration. -/
theorem tokenize_terminates_with_bounded_output (s : String) :
    (tokenize s).length ≤ s.length ∧
    ∀ f : Nat, s.length ≤ f → tokenizeGo f s.toList = tokenize s := by
  constructor
  · have h := tokenizeGo_length_le (s.length + 1) s.toList
    have h2 : s.toList.length = s.length := rfl
    exact le_trans h (le_of_eq h2)
  · intro f hf
    apply tokenizeGo_fuel
    · have h2 : s.toList.length = s.length := rfl
      omega
    · have h2 : s.toList.length = s.length := rfl
      omega

/-- Witness for the theorem of claim C5 at the concrete input "ab". -/
theorem tokenize_terminates_with_bounded_output_witness :
    (tokenize "ab").length ≤ "ab".length ∧ tokenizeGo 7 "ab".toList = tokenize "ab" :=
  ⟨(tokenize_terminates_with_bounded_output "ab").1,
    (tokenize_terminates_with_bounded_output "ab").2 7 (by decide)⟩

/-- Claim C6: a slash directly followed by a closing angle bracket is one
SelfClosingTag token, while a lone slash is silently discarded, so the
input with a space in between yields only the CloseBracket token. -/
theorem selfClosing_and_lone_slash :
    tokenize "/>" = [Token.mk "/>" TokenType.SelfClosingTag] ∧
    tokenize "/ >" = [Token.mk ">" TokenType.CloseBracket] := by decide

/-- Claim C7: the exact reserved word let is lexed as the keyword token
Let, while the longer word letx is one Identifier token, keyword
classification applying only to the full maximal word. -/
theorem keyword_exact_match_only :
    tokenize "let" = [Token.mk "let" TokenType.Let] ∧
    tokenize "letx" = [Token.mk "letx" TokenType.Identifier] := by decide

/-- Claim C8: an input starting with a quote character first yields exactly
one StringLiteral token whose lexeme is everything up to but excluding the
next occurrence of the same quote, with no escape processing, and the rest
of the input is tokenized after the closing quote; when no closing quote
occurs the literal absorbs the whole remaining input and tokenize still
returns normally. -/
theorem string_literal_head_token (q : Char) (rest : List Char)
    (hq : q = dquote ∨ q = squote) :
    tokenize (String.mk (q :: rest)) =
      Token.mk (String.mk (rest.takeWhile (fun x => x != q))) TokenType.StringLiteral ::
        tokenize (String.mk ((rest.dropWhile (fun x => x != q)).tail)) ∧
    (q ∉ rest →
      tokenize (String.mk (q :: rest)) =
        [Token.mk (String.mk rest) TokenType.StringLiteral]) := by
  have hwq : isWhitespaceJS q = false := by rcases hq with rfl | rfl <;> rfl
  have hmain : tokenize (String.mk (q :: rest)) =
      Token.mk (String.mk (rest.takeWhile (fun x => x != q))) TokenType.StringLiteral ::
        tokenize (String.mk ((rest.dropWhile (fun x => x != q)).tail)) := by
    show tokenizeGo (rest.length + 1 + 1) (q :: rest) = _
    rw [tokenizeGo_succ]
    have hdw : (q :: rest).dropWhile isWhitespaceJS = q :: rest := by
      rw [List.dropWhile_cons, if_neg (by simp [hwq])]
    rw [hdw, if_neg (by simp), scanStep_quote q rest hq]
    have hfuel : tokenizeGo (rest.length + 1) ((rest.dropWhile (fun x => x != q)).tail) =
        tokenize (String.mk ((rest.dropWhile (fun x => x != q)).tail)) := by
      show _ = tokenizeGo
        ((String.mk ((rest.dropWhile (fun x => x != q)).tail)).length + 1)
        ((rest.dropWhile (fun x => x != q)).tail)
      apply tokenizeGo_fuel
      · exact le_trans (le_trans (tail_length_le _) (dropWhile_length_le _ _))
          (Nat.le_succ _)
      · exact Nat.le_succ _
    show Token.mk (String.mk (rest.takeWhile (fun x => x != q))) TokenType.StringLiteral ::
        tokenizeGo (rest.length + 1) ((rest.dropWhile (fun x => x != q)).tail) = _
    rw [hfuel]
  refine ⟨hmain, fun hnm => ?_⟩
  rw [hmain, takeWhile_ne_of_not_mem q rest hnm, dropWhile_ne_of_not_mem q rest hnm]
  rfl

/-- Witness for the theorem of claim C8: an unterminated double-quoted
literal absorbing the rest of the input. -/
theorem string_literal_head_token_witness :
    tokenize (String.mk [dquote, 'a']) =
      [Token.mk (String.mk ['a']) TokenType.StringLiteral] :=
  (string_literal_head_token dquote ['a'] (Or.inl rfl)).2 (by decide)

/-- Claim C9, counterexample: appending the whitespace-only string of one
space changes the token sequence of an input ending in an unterminated
string literal, so surrounding whitespace is not always irrelevant. -/
theorem trailing_whitespace_counterexample :
    (" ".toList.all isWhitespaceJS) = true ∧
    tokenize (String.mk [dquote, 'a'] ++ " ") ≠ tokenize (String.mk [dquote, 'a']) := by
  decide

/-- Claim C9 (amended): prepending whitespace never changes the token
sequence, and the concrete pair of the original claim does coincide; but
appended trailing whitespace can change it, since an unterminated string
literal absorbs it into its lexeme. -/
theorem leading_whitespace_invariance (w s : String)
    (hw : w.toList.all isWhitespaceJS = true) :
    tokenize (w ++ s) = tokenize s ∧ tokenize "  let  " = tokenize "let" := by
  refine ⟨?_, by decide⟩
  show tokenizeGo ((w ++ s).length + 1) (w ++ s).toList = tokenizeGo (s.length + 1) s.toList
  have h1 : (w ++ s).toList = w.toList ++ s.toList := String.data_append w s
  rw [h1]
  exact tokenizeGo_ws_prefix _ _ _ _ hw
    (by
      have h2 : (w.toList ++ s.toList).length = (w ++ s).length := by rw [← h1]; rfl
      omega)
    (by
      have h3 : s.toList.length = s.length := rfl
      omega)

/-- Witness for the theorem of claim C9 at one space prepended to "x". -/
theorem leading_whitespace_invariance_witness :
    tokenize (" " ++ "x") = tokenize "x" ∧ tokenize "  let  " = tokenize "let" :=
  leading_whitespace_invariance " " "x" (by decide)

/-- Claim C10: capitalizing any word of the special-identifier table yields
the name of a declared TokenType enumerant, so the runtime reverse-enum
lookup of the keyword branch is always defined. -/
theorem keyword_lookup_always_defined :
    specialIdentifiers.all (fun w => (enumOfName (capitalizeFirst w)).isSome) = true := by
  decide

end HTCL
